import Mathlib

/-!
# xtensor-python: the strided view over a host buffer (`pyarray.hpp`)

A shallow embedding of `pyarray<T, ExtraFlags>` and `pyarray_backstrides<A>`.

* `std::size_t` values are natural numbers; every product or difference the
  source computes in `size_t` is reduced modulo `size_t_range = 2 ^ 64`.
* `sizeof(value_type)` is the parameter `itemsize`.
* The array object behind `m_ptr` is the record `pybind_array`: extents, byte
  strides and the elements reachable from the data pointer.  The members that
  dereference `m_ptr` (`dimension`, `shape`, `strides`, `operator()`, ...) are
  functions of that record; `reshape` works on `pyarray`, whose `m_ptr` may be
  null.
-/

namespace xt

/-- Number of values of `std::size_t`. -/
def size_t_range : Nat := 2 ^ 64

/-- The enumeration `layout` taken by `reshape(shape, layout)`. -/
inductive layout where
  | row_major
  | column_major
deriving DecidableEq, Repr

/-- The two fatal conditions raised on the paths modelled here. -/
inductive failure where
  | index_dimension_mismatch
  | shape_strides_ndim_mismatch
deriving DecidableEq, Repr

/-- Modelled from the spec: the buffer descriptor of the host array
(`pybind11::array`, whose header is not part of the sources): element count per
dimension, byte stride per dimension and the elements found at the data
pointer.  The rank is the length of `shape`. -/
structure pybind_array (α : Type) where
  shape : List Nat
  strides : List Nat
  data : List α
deriving DecidableEq, Repr

/-- The descriptor carries one byte stride per dimension. -/
def pybind_array.wf {α : Type} (a : pybind_array α) : Prop :=
  a.strides.length = a.shape.length

instance {α : Type} (a : pybind_array α) : Decidable a.wf := by
  unfold pybind_array.wf
  infer_instance

/-- The view: `m_ptr` is null for a default-constructed `pyarray`. -/
structure pyarray (α : Type) where
  m_ptr : Option (pybind_array α)
deriving DecidableEq, Repr

/-- Member `pyarray::dimension()`: `pybind_array::ndim()`. -/
def pyarray.dimension {α : Type} (a : pybind_array α) : Nat :=
  a.shape.length

/-- Member `pyarray::shape()`: a copy of the `dimension()` extents of the descriptor. -/
def pyarray.shape {α : Type} (a : pybind_array α) : List Nat :=
  a.shape

/-- Member `pyarray::strides()`: every byte stride divided by `sizeof(value_type)`. -/
def pyarray.strides {α : Type} (itemsize : Nat) (a : pybind_array α) : List Nat :=
  a.strides.map (fun str => str / itemsize)

/-- Member `pyarray_backstrides::operator[]`.  `p_a` points to the `pybind_array` base,
so `p_a->shape()` and `p_a->strides()` are the raw extents and byte strides;
`sh - 1` and the product are `size_t` operations.  `none` stands for an index
outside the descriptor. -/
def pyarray_backstrides.operator_index {α : Type} (itemsize : Nat) (p_a : pybind_array α)
    (i : Nat) : Option Nat :=
  match p_a.shape[i]?, p_a.strides[i]? with
  | some sh, some st =>
      some (if sh = 1 then 0
            else ((((sh + size_t_range - 1) % size_t_range) * st) % size_t_range) / itemsize)
  | _, _ => none

/-- Modelled from the spec: the host buffer's own offset computation
(`pybind11::array::get_byte_offset`, not part of the sources): the byte offset
of an index tuple is the sum over the dimensions of index times byte stride.
The result is the `size_t` value that `operator()` divides, so the sum is
reduced modulo `size_t_range`.  The spec describes no range validation of the
indices, and none is modelled. -/
def pybind_array.get_byte_offset {α : Type} (a : pybind_array α) (args : List Nat) : Nat :=
  (List.zipWith (fun i st => i * st) args a.strides).sum % size_t_range

/-- Member `pyarray::operator()(args...)`: after the dimension check
(`fail_dim_check` raises), the reference returned is to the element at
`get_byte_offset(args...) / itemsize()` from the data pointer.  The value
is that element offset. -/
def pyarray.operator_call {α : Type} (itemsize : Nat) (a : pybind_array α) (args : List Nat) :
    Except failure Nat :=
  if args.length ≠ pyarray.dimension a then
    Except.error failure.index_dimension_mismatch
  else
    Except.ok (a.get_byte_offset args / itemsize)

/-- Member `pyarray::operator()(args...) const`: the element itself.  The list
`data` holds the elements laid out forward from the data pointer; `none` stands
for an offset that is not one of them, and what the access finds there is then
left open. -/
def pyarray.operator_call_const {α : Type} (itemsize : Nat) (a : pybind_array α)
    (args : List Nat) : Except failure (Option α) :=
  if args.length ≠ pyarray.dimension a then
    Except.error failure.index_dimension_mismatch
  else
    Except.ok (a.data[a.get_byte_offset args / itemsize]?)

/-- Algorithm `std::equal(first1, last1, first2)` on `size_t` ranges: the second range is
read as far as the first one reaches. -/
def std_equal : List Nat → List Nat → Bool
  | [], _ => true
  | _ :: _, [] => false
  | x :: xs, y :: ys => x == y && std_equal xs ys

/-- Member `pyarray::is_trivial_broadcast(strides)`. -/
def pyarray.is_trivial_broadcast {α : Type} (itemsize : Nat) (a : pybind_array α)
    (strides : List Nat) : Bool :=
  strides.length == pyarray.dimension a && std_equal strides (pyarray.strides itemsize a)

/-- Modelled from the spec: the constructor `pybind_array(shape, strides)` of the
host array (not part of the sources).  A strides sequence whose length differs
from the shape's is a fatal error; otherwise the result is a freshly allocated
buffer with the requested extents and the requested strides as its byte
strides.  The argument `fresh` is what the new block holds. -/
def pybind_array.construct {α : Type} (fresh : List α) (shape strides : List Nat) :
    Except failure (pybind_array α) :=
  if shape.length ≠ strides.length then
    Except.error failure.shape_strides_ndim_mismatch
  else
    Except.ok ⟨shape, strides, fresh⟩

/-- Member `pyarray::reshape(shape, strides)`: `self_type tmp(shape, strides)`
followed by `*this = std::move(tmp)`; the previous association of the view is
dropped. -/
def pyarray.reshape_strides {α : Type} (fresh : List α) (_self : pyarray α)
    (shape strides : List Nat) : Except failure (pyarray α) :=
  match pybind_array.construct fresh shape strides with
  | Except.error e => Except.error e
  | Except.ok tmp => Except.ok ⟨some tmp⟩

/-- The body shared by the two loops of `reshape(shape, layout)` at index `j`:
`strides[j] = data_size; data_size = strides[j] * shape[j];
if (shape[j] == 1) strides[j] = 0;`.  The state is `(strides, data_size)`. -/
def stride_step (shape : List Nat) (st : List Nat × Nat) (j : Nat) : List Nat × Nat :=
  let strides := st.1.set j st.2
  let data_size := (strides.getD j 0 * shape.getD j 0) % size_t_range
  (if shape.getD j 0 = 1 then strides.set j 0 else strides, data_size)

/-- The byte strides `reshape(shape, layout)` computes: `strides` starts as
`shape.size()` zeros and `data_size` as `sizeof(value_type)`; the row-major loop
visits `i - 1` for `i = size, ..., 1`, the other loop `i = 0, ..., size - 1`. -/
def layout_strides (itemsize : Nat) (shape : List Nat) (l : layout) : List Nat :=
  let strides := List.replicate shape.length 0
  let data_size := itemsize
  match l with
  | layout.row_major =>
      ((List.range shape.length).reverse.foldl (stride_step shape) (strides, data_size)).1
  | layout.column_major =>
      ((List.range shape.length).foldl (stride_step shape) (strides, data_size)).1

/-- Member `pyarray::reshape(shape, l)`. -/
def pyarray.reshape_layout {α : Type} (itemsize : Nat) (fresh : List α) (self : pyarray α)
    (shape : List Nat) (l : layout) : Except failure (pyarray α) :=
  pyarray.reshape_strides fresh self shape (layout_strides itemsize shape l)

/-- Member `pyarray::reshape(shape)`. -/
def pyarray.reshape {α : Type} (itemsize : Nat) (fresh : List α) (self : pyarray α)
    (shape : List Nat) : Except failure (pyarray α) :=
  match self.m_ptr with
  | none => pyarray.reshape_layout itemsize fresh self shape layout.row_major
  | some a =>
      if shape.length ≠ pyarray.dimension a || !std_equal shape a.shape then
        pyarray.reshape_layout itemsize fresh self shape layout.row_major
      else
        Except.ok self

/-- Modelled from the spec: the position cursor `xstepper` of the expression
engine (`xtensor/xiterator.hpp`, not part of the sources): the view it walks,
its position as an element offset from `storage_begin()`, and the rank offset. -/
structure xstepper (α : Type) where
  p_c : pybind_array α
  m_it : Nat
  m_offset : Nat
deriving DecidableEq, Repr

/-- Member `pyarray::stepper_begin(shape)`: `offset = shape.size() - dimension()` in
`size_t`, position `storage_begin()`. -/
def pyarray.stepper_begin {α : Type} (a : pybind_array α) (shape : List Nat) : xstepper α :=
  let offset := (shape.length + size_t_range - pyarray.dimension a) % size_t_range
  ⟨a, 0, offset⟩

/-- Modelled from the spec: one step of the cursor along dimension `dim` of the
broadcast shape.  A dimension absent from the view (below the rank offset)
leaves the position unchanged; a dimension present in the view moves it by
that dimension's stride, `strides()[dim - offset]`. -/
def xstepper.step {α : Type} (itemsize : Nat) (s : xstepper α) (dim : Nat) : xstepper α :=
  if dim < s.m_offset then s
  else { s with m_it := s.m_it + (pyarray.strides itemsize s.p_c).getD (dim - s.m_offset) 0 }

/-- Row-major flat index of an index tuple in a shape. -/
def row_major_index : List Nat → List Nat → Nat
  | _ :: shape, i :: idx => i * shape.prod + row_major_index shape idx
  | _, _ => 0

/-- The index tuple has one entry per dimension, each below the extent. -/
def in_range : List Nat → List Nat → Prop
  | [], [] => True
  | s :: shape, i :: idx => i < s ∧ in_range shape idx
  | _, _ => False

instance in_range.decide_inst : (S idx : List Nat) → Decidable (in_range S idx)
  | [], [] => isTrue trivial
  | [], _ :: _ => isFalse (fun h => h)
  | _ :: _, [] => isFalse (fun h => h)
  | s :: S, i :: idx =>
      have _inst : Decidable (in_range S idx) := in_range.decide_inst S idx
      (inferInstance : Decidable (i < s ∧ in_range S idx))

/-- Every trailing block of the shape has a byte size that is a `size_t` value:
no product of the stride computation wraps. -/
def fits_size_t (itemsize : Nat) (shape : List Nat) : Prop :=
  ∀ k, k ≤ shape.length → itemsize * (shape.drop k).prod < size_t_range

instance (itemsize : Nat) (shape : List Nat) : Decidable (fits_size_t itemsize shape) := by
  unfold fits_size_t
  infer_instance

/-- Value of `data_size` after the row-major loop has run over a shape. -/
def row_size (itemsize : Nat) : List Nat → Nat
  | [] => itemsize
  | s :: rest => (row_size itemsize rest * s) % size_t_range

/-- Closed form of the row-major byte strides. -/
def row_strides (itemsize : Nat) : List Nat → List Nat
  | [] => []
  | s :: rest => (if s = 1 then 0 else row_size itemsize rest) :: row_strides itemsize rest

/-- Closed form of the column-major byte strides, from the running `data_size`. -/
def col_strides (data_size : Nat) : List Nat → List Nat
  | [] => []
  | s :: rest =>
      (if s = 1 then 0 else data_size) :: col_strides ((data_size * s) % size_t_range) rest

/-- Column-major flat index of an index tuple in a shape. -/
def col_major_index : List Nat → List Nat → Nat
  | s :: shape, i :: idx => i + s * col_major_index shape idx
  | _, _ => 0

/-- The linearisation of an index tuple that goes with a layout. -/
def layout_index : layout → List Nat → List Nat → Nat
  | layout.row_major, shape, idx => row_major_index shape idx
  | layout.column_major, shape, idx => col_major_index shape idx

/-- Modelled from the spec: the element count `pybind11::array::size()` of the
host array (not part of the sources), the product of the extents. -/
def pybind_array.size {α : Type} (a : pybind_array α) : Nat :=
  a.shape.prod

/-- Member `pyarray::storage_begin()`: the data pointer, element offset `0`. -/
def pyarray.storage_begin {α : Type} (_a : pybind_array α) : Nat :=
  0

/-- Member `pyarray::storage_end()`: `storage_begin() + pybind_array::size()`, as an
element offset from the data pointer. -/
def pyarray.storage_end {α : Type} (a : pybind_array α) : Nat :=
  pyarray.storage_begin a + a.size

/-! ## The stride loops in closed form -/

theorem stride_step_shift (A B X Y : List Nat) (d j : Nat) (h : A.length = X.length) :
    stride_step (A ++ B) (X ++ Y, d) (X.length + j) =
      (X ++ (stride_step B (Y, d) j).1, (stride_step B (Y, d) j).2) := by
  have hA : (A ++ B).getD (X.length + j) 0 = B.getD j 0 := by
    rw [← h]
    simp [List.getD, List.getElem?_append_right]
  have hset : ∀ (L : List Nat) (v : Nat), (X ++ L).set (X.length + j) v = X ++ L.set j v := by
    intro L v
    rw [List.set_append]
    simp
  have hget : ∀ (L : List Nat), (X ++ L).getD (X.length + j) 0 = L.getD j 0 := by
    intro L
    simp [List.getD, List.getElem?_append_right]
  unfold stride_step
  simp only [hA, hset, hget]
  split <;> simp [hset]

theorem stride_fold_shift (A B X : List Nat) (h : A.length = X.length) (ord : List Nat) :
    ∀ (Y : List Nat) (d : Nat),
      (ord.map (fun j => X.length + j)).foldl (stride_step (A ++ B)) (X ++ Y, d) =
        (X ++ (ord.foldl (stride_step B) (Y, d)).1, (ord.foldl (stride_step B) (Y, d)).2) := by
  induction ord with
  | nil => intro Y d; rfl
  | cons j ord ih =>
      intro Y d
      simp only [List.map_cons, List.foldl_cons]
      rw [stride_step_shift A B X Y d j h]
      exact ih _ _

theorem row_fold_eq (itemsize : Nat) (S : List Nat) :
    (List.range S.length).reverse.foldl (stride_step S) (List.replicate S.length 0, itemsize) =
      (row_strides itemsize S, row_size itemsize S) := by
  induction S with
  | nil => rfl
  | cons s rest ih =>
      have hr : (List.range (rest.length + 1)).reverse =
          ((List.range rest.length).reverse.map (fun j => [0].length + j)) ++ [0] := by
        rw [List.range_succ_eq_map, List.reverse_cons, List.map_reverse]
        congr 2
        apply List.map_congr_left
        intro j _
        simp [Nat.succ_eq_add_one, Nat.add_comm]
      have hsh := stride_fold_shift [s] rest [0] rfl (List.range rest.length).reverse
        (List.replicate rest.length 0) itemsize
      simp only [List.length_cons, List.replicate_succ]
      rw [hr, List.foldl_append]
      have e1 : (s :: rest) = [s] ++ rest := rfl
      have e2 : (0 :: List.replicate rest.length 0) = [0] ++ List.replicate rest.length 0 := rfl
      rw [e1, e2, hsh, ih]
      clear e1 e2 hsh hr ih
      by_cases h1 : s = 1 <;> simp [stride_step, row_strides, row_size, h1]

theorem col_fold_eq (S : List Nat) :
    ∀ d : Nat, ((List.range S.length).foldl (stride_step S) (List.replicate S.length 0, d)).1 =
      col_strides d S := by
  induction S with
  | nil => intro d; rfl
  | cons s rest ih =>
      intro d
      have hr : List.range (rest.length + 1) =
          0 :: (List.range rest.length).map (fun j => [0].length + j) := by
        rw [List.range_succ_eq_map]
        congr 1
        apply List.map_congr_left
        intro j _
        simp [Nat.succ_eq_add_one, Nat.add_comm]
      simp only [List.length_cons, List.replicate_succ]
      rw [hr, List.foldl_cons]
      have hstep : stride_step (s :: rest) (0 :: List.replicate rest.length 0, d) 0 =
          ((if s = 1 then 0 else d) :: List.replicate rest.length 0, (d * s) % size_t_range) := by
        by_cases h1 : s = 1 <;> simp [stride_step, h1]
      rw [hstep]
      have hsh := stride_fold_shift [s] rest [if s = 1 then 0 else d] rfl (List.range rest.length)
        (List.replicate rest.length 0) ((d * s) % size_t_range)
      have e1 : (s :: rest) = [s] ++ rest := rfl
      have e2 : ((if s = 1 then 0 else d) :: List.replicate rest.length 0) =
          [if s = 1 then 0 else d] ++ List.replicate rest.length 0 := rfl
      have e3 : [if s = 1 then 0 else d].length = [0].length := rfl
      rw [e1, e2, ← e3, hsh, ih]
      rfl

theorem layout_strides_row (itemsize : Nat) (S : List Nat) :
    layout_strides itemsize S layout.row_major = row_strides itemsize S := by
  show ((List.range S.length).reverse.foldl (stride_step S)
    (List.replicate S.length 0, itemsize)).1 = row_strides itemsize S
  rw [row_fold_eq]

theorem layout_strides_col (itemsize : Nat) (S : List Nat) :
    layout_strides itemsize S layout.column_major = col_strides itemsize S := by
  exact col_fold_eq S itemsize

theorem row_strides_length (itemsize : Nat) (S : List Nat) :
    (row_strides itemsize S).length = S.length := by
  induction S with
  | nil => rfl
  | cons s rest ih => simp [row_strides, ih]

theorem col_strides_length (S : List Nat) :
    ∀ d : Nat, (col_strides d S).length = S.length := by
  induction S with
  | nil => intro d; rfl
  | cons s rest ih => intro d; simp [col_strides, ih]

theorem layout_strides_length (itemsize : Nat) (S : List Nat) (l : layout) :
    (layout_strides itemsize S l).length = S.length := by
  cases l
  · rw [layout_strides_row, row_strides_length]
  · rw [layout_strides_col, col_strides_length]

theorem row_strides_unit (itemsize : Nat) (S : List Nat) :
    ∀ i : Nat, S[i]? = some 1 → (row_strides itemsize S)[i]? = some 0 := by
  induction S with
  | nil => intro i h; simp at h
  | cons s rest ih =>
      intro i h
      cases i with
      | zero =>
          simp only [List.getElem?_cons_zero, Option.some.injEq] at h
          simp [row_strides, h]
      | succ i =>
          simp only [List.getElem?_cons_succ] at h
          simpa [row_strides] using ih i h

theorem col_strides_unit (S : List Nat) :
    ∀ (d i : Nat), S[i]? = some 1 → (col_strides d S)[i]? = some 0 := by
  induction S with
  | nil => intro d i h; simp at h
  | cons s rest ih =>
      intro d i h
      cases i with
      | zero =>
          simp only [List.getElem?_cons_zero, Option.some.injEq] at h
          simp [col_strides, h]
      | succ i =>
          simp only [List.getElem?_cons_succ] at h
          simpa [col_strides] using ih _ i h

theorem reshape_layout_ok {α : Type} (itemsize : Nat) (fresh : List α) (v : pyarray α)
    (S : List Nat) (l : layout) :
    pyarray.reshape_layout itemsize fresh v S l =
      Except.ok ⟨some ⟨S, layout_strides itemsize S l, fresh⟩⟩ := by
  unfold pyarray.reshape_layout pyarray.reshape_strides pybind_array.construct
  rw [layout_strides_length]
  simp

theorem byte_offset_eq_mul (itemsize : Nat) (args : List Nat) :
    ∀ strides : List Nat, (∀ b ∈ strides, itemsize ∣ b) →
      (List.zipWith (fun i st => i * st) args strides).sum =
        itemsize * (List.zipWith (fun i st => i * st) args
          (strides.map (fun str => str / itemsize))).sum := by
  induction args with
  | nil => intro strides _; simp
  | cons i args ih =>
      intro strides h
      cases strides with
      | nil => simp
      | cons b strides =>
          have hb : itemsize ∣ b := h b (List.mem_cons_self _ _)
          have ht : ∀ c ∈ strides, itemsize ∣ c := fun c hc => h c (List.mem_cons_of_mem _ hc)
          simp only [List.zipWith_cons_cons, List.sum_cons, List.map_cons]
          rw [ih strides ht, Nat.mul_add]
          congr 1
          obtain ⟨q, rfl⟩ := hb
          rcases Nat.eq_zero_or_pos itemsize with h0 | hpos
          · subst h0; simp
          · rw [Nat.mul_div_cancel_left q hpos]
            ring

theorem byte_offset_div (itemsize : Nat) (args strides : List Nat)
    (h : ∀ b ∈ strides, itemsize ∣ b) :
    (List.zipWith (fun i st => i * st) args strides).sum / itemsize =
      (List.zipWith (fun i st => i * st) args (strides.map (fun str => str / itemsize))).sum := by
  rcases Nat.eq_zero_or_pos itemsize with h0 | hpos
  · subst h0
    have hz : ∀ L : List Nat, (∀ b ∈ L, b = 0) → ∀ A : List Nat,
        (List.zipWith (fun i st => i * st) A L).sum = 0 := by
      intro L
      induction L with
      | nil => intro _ A; cases A <;> simp
      | cons b L ih =>
          intro hL A
          cases A with
          | nil => simp
          | cons x A =>
              have hb : b = 0 := hL b (List.mem_cons_self _ _)
              simp [hb, ih (fun c hc => hL c (List.mem_cons_of_mem _ hc)) A]
    rw [Nat.div_zero]
    symm
    apply hz
    intro b hb
    simp only [List.mem_map] at hb
    obtain ⟨c, _, rfl⟩ := hb
    exact Nat.div_zero c
  · rw [byte_offset_eq_mul itemsize args strides h, Nat.mul_div_cancel_left _ hpos]

theorem fits_size_t_tail (itemsize s : Nat) (rest : List Nat)
    (h : fits_size_t itemsize (s :: rest)) : fits_size_t itemsize rest := by
  intro k hk
  have := h (k + 1) (by simpa using hk)
  simpa using this

theorem fits_size_t_drop (itemsize : Nat) (S : List Nat) (h : fits_size_t itemsize S) :
    ∀ k : Nat, fits_size_t itemsize (S.drop k) := by
  induction S with
  | nil => intro k; simpa using h
  | cons s rest ih =>
      intro k
      cases k with
      | zero => simpa using h
      | succ k => simpa using ih (fits_size_t_tail itemsize s rest h) k

theorem row_size_of_fits (itemsize : Nat) (S : List Nat) (h : fits_size_t itemsize S) :
    row_size itemsize S = itemsize * S.prod := by
  induction S with
  | nil => simp [row_size]
  | cons s rest ih =>
      have h0 : itemsize * (s :: rest).prod < size_t_range := by
        simpa using h 0 (Nat.zero_le _)
      rw [row_size, ih (fits_size_t_tail itemsize s rest h)]
      have e : itemsize * rest.prod * s = itemsize * (s :: rest).prod := by
        rw [List.prod_cons]; ring
      rw [e, Nat.mod_eq_of_lt h0]

theorem row_strides_getD (itemsize : Nat) (S : List Nat) :
    ∀ i : Nat, i < S.length →
      (row_strides itemsize S).getD i 0 =
        if S.getD i 0 = 1 then 0 else row_size itemsize (S.drop (i + 1)) := by
  induction S with
  | nil => intro i hi; simp at hi
  | cons s rest ih =>
      intro i hi
      cases i with
      | zero => simp [row_strides]
      | succ i =>
          have hi2 : i < rest.length := by simpa using hi
          simpa [row_strides] using ih i hi2

theorem map_div_getD (itemsize : Nat) (L : List Nat) (i : Nat) :
    (L.map (fun str => str / itemsize)).getD i 0 = L.getD i 0 / itemsize := by
  by_cases h : i < L.length
  · simp [List.getD, h]
  · simp [List.getD, h, List.getElem?_eq_none (Nat.le_of_not_lt h)]

theorem in_range_length : ∀ (S idx : List Nat), in_range S idx → idx.length = S.length
  | [], [], _ => rfl
  | [], _ :: _, h => by simp [in_range] at h
  | _ :: _, [], h => by simp [in_range] at h
  | _ :: S, _ :: idx, h => by
      simp only [in_range] at h
      simp [in_range_length S idx h.2]

theorem row_offset_eq (itemsize : Nat) :
    ∀ (S idx : List Nat), fits_size_t itemsize S → in_range S idx →
      (List.zipWith (fun i st => i * st) idx (row_strides itemsize S)).sum =
        itemsize * row_major_index S idx
  | [], [], _, _ => by simp [row_strides, row_major_index]
  | [], _ :: _, _, h => by simp [in_range] at h
  | _ :: _, [], _, h => by simp [in_range] at h
  | s :: S, i :: idx, hf, h => by
      simp only [in_range] at h
      have hrest := fits_size_t_tail itemsize s S hf
      have ih := row_offset_eq itemsize S idx hrest h.2
      simp only [row_strides, row_major_index, List.zipWith_cons_cons, List.sum_cons, ih]
      by_cases h1 : s = 1
      · have hi0 : i = 0 := by omega
        simp [h1, hi0]
      · simp only [h1, if_false]
        rw [row_size_of_fits itemsize S hrest]
        ring

theorem row_major_index_lt :
    ∀ (S idx : List Nat), in_range S idx → row_major_index S idx < S.prod
  | [], [], _ => by simp [row_major_index]
  | [], _ :: _, h => by simp [in_range] at h
  | _ :: _, [], h => by simp [in_range] at h
  | s :: S, i :: idx, h => by
      simp only [in_range] at h
      have ih := row_major_index_lt S idx h.2
      simp only [row_major_index, List.prod_cons]
      have h2 : (i + 1) * S.prod ≤ s * S.prod := Nat.mul_le_mul_right _ h.1
      have h3 : (i + 1) * S.prod = i * S.prod + S.prod := by ring
      omega

theorem std_equal_iff : ∀ (S T : List Nat), S.length = T.length → (std_equal S T = true ↔ S = T)
  | [], [], _ => by simp [std_equal]
  | [], _ :: _, h => by simp at h
  | _ :: _, [], h => by simp at h
  | x :: S, y :: T, h => by
      have hl : S.length = T.length := by simpa using h
      simp [std_equal, std_equal_iff S T hl]

theorem list_eq_iff_getElem (S T : List Nat) :
    S = T ↔ S.length = T.length ∧ ∀ i : Nat, i < S.length → S[i]? = T[i]? := by
  constructor
  · rintro rfl
    exact ⟨rfl, fun _ _ => rfl⟩
  · rintro ⟨hl, h⟩
    apply List.ext_getElem? 
    intro i
    by_cases hi : i < S.length
    · exact h i hi
    · rw [List.getElem?_eq_none (Nat.le_of_not_lt hi),
        List.getElem?_eq_none (by omega)]

theorem one_le_prod (S : List Nat) (h : ∀ s ∈ S, 1 ≤ s) : 1 ≤ S.prod := by
  induction S with
  | nil => simp
  | cons s rest ih =>
      have hs : 1 ≤ s := h s (List.mem_cons_self _ _)
      have hr : 1 ≤ rest.prod := ih (fun x hx => h x (List.mem_cons_of_mem _ hx))
      rw [List.prod_cons]
      exact Nat.mul_pos hs hr

theorem fits_size_t_of_total (itemsize : Nat) (S : List Nat) (hpos : ∀ s ∈ S, 1 ≤ s)
    (hfit : itemsize * S.prod < size_t_range) : fits_size_t itemsize S := by
  intro k _
  have hsplit : (S.take k).prod * (S.drop k).prod = S.prod := List.prod_take_mul_prod_drop S k
  have htake : 1 ≤ (S.take k).prod :=
    one_le_prod _ (fun x hx => hpos x (List.mem_of_mem_take hx))
  have hle : (S.drop k).prod ≤ S.prod := by
    rw [← hsplit]
    exact Nat.le_mul_of_pos_left _ htake
  exact Nat.lt_of_le_of_lt (Nat.mul_le_mul_left _ hle) hfit

theorem row_strides_dvd (itemsize : Nat) (S : List Nat) (hfit : fits_size_t itemsize S) :
    ∀ b ∈ row_strides itemsize S, itemsize ∣ b := by
  induction S with
  | nil => intro b hb; simp [row_strides] at hb
  | cons s rest ih =>
      have hrest := fits_size_t_tail itemsize s rest hfit
      intro b hb
      simp only [row_strides, List.mem_cons] at hb
      rcases hb with hb | hb
      · subst hb
        by_cases h1 : s = 1
        · simp [h1]
        · rw [if_neg h1, row_size_of_fits itemsize rest hrest]
          exact Nat.dvd_mul_right _ _
      · exact ih hrest b hb

theorem col_step_no_wrap (d s : Nat) (rest : List Nat) (hpos : ∀ x ∈ rest, 1 ≤ x)
    (hfit : d * (s :: rest).prod < size_t_range) : (d * s) % size_t_range = d * s := by
  apply Nat.mod_eq_of_lt
  have hr : 1 ≤ rest.prod := one_le_prod rest hpos
  have hle : d * s ≤ d * s * rest.prod := Nat.le_mul_of_pos_right _ hr
  have he : d * (s :: rest).prod = d * s * rest.prod := by
    rw [List.prod_cons, Nat.mul_assoc]
  omega

theorem col_strides_dvd (itemsize : Nat) (S : List Nat) :
    ∀ d : Nat, itemsize ∣ d → (∀ s ∈ S, 1 ≤ s) → d * S.prod < size_t_range →
      ∀ b ∈ col_strides d S, itemsize ∣ b := by
  induction S with
  | nil => intro d _ _ _ b hb; simp [col_strides] at hb
  | cons s rest ih =>
      intro d hd hpos hfit b hb
      have hposr : ∀ x ∈ rest, 1 ≤ x := fun x hx => hpos x (List.mem_cons_of_mem _ hx)
      have hnw := col_step_no_wrap d s rest hposr hfit
      simp only [col_strides, List.mem_cons] at hb
      rcases hb with hb | hb
      · subst hb
        by_cases h1 : s = 1
        · simp [h1]
        · rw [if_neg h1]; exact hd
      · rw [hnw] at hb
        have hfit2 : d * s * rest.prod < size_t_range := by
          rw [Nat.mul_assoc, ← List.prod_cons]; exact hfit
        exact ih (d * s) (Dvd.dvd.mul_right hd s) hposr hfit2 b hb

theorem col_offset_eq :
    ∀ (S idx : List Nat) (d : Nat), (∀ s ∈ S, 1 ≤ s) → d * S.prod < size_t_range →
      in_range S idx →
      (List.zipWith (fun i st => i * st) idx (col_strides d S)).sum =
        d * col_major_index S idx
  | [], [], _, _, _, _ => by simp [col_strides, col_major_index]
  | [], _ :: _, _, _, _, h => by simp [in_range] at h
  | _ :: _, [], _, _, _, h => by simp [in_range] at h
  | s :: S, i :: idx, d, hpos, hfit, h => by
      simp only [in_range] at h
      have hposr : ∀ x ∈ S, 1 ≤ x := fun x hx => hpos x (List.mem_cons_of_mem _ hx)
      have hnw := col_step_no_wrap d s S hposr hfit
      have hfit2 : d * s * S.prod < size_t_range := by
        rw [Nat.mul_assoc, ← List.prod_cons]; exact hfit
      have ih := col_offset_eq S idx (d * s) hposr hfit2 h.2
      simp only [col_strides, col_major_index, List.zipWith_cons_cons, List.sum_cons, hnw, ih]
      by_cases h1 : s = 1
      · have hi0 : i = 0 := by omega
        simp [h1, hi0]
      · simp only [h1, if_false]
        ring

theorem col_major_index_lt :
    ∀ (S idx : List Nat), in_range S idx → col_major_index S idx < S.prod
  | [], [], _ => by simp [col_major_index]
  | [], _ :: _, h => by simp [in_range] at h
  | _ :: _, [], h => by simp [in_range] at h
  | s :: S, i :: idx, h => by
      simp only [in_range] at h
      have ih := col_major_index_lt S idx h.2
      simp only [col_major_index, List.prod_cons]
      have h2 : s * (col_major_index S idx + 1) ≤ s * S.prod := Nat.mul_le_mul_left _ ih
      have h3 : s * (col_major_index S idx + 1) = s * col_major_index S idx + s := by ring
      omega

theorem row_major_index_inj :
    ∀ (S idx idx2 : List Nat), in_range S idx → in_range S idx2 →
      row_major_index S idx = row_major_index S idx2 → idx = idx2
  | [], [], [], _, _, _ => rfl
  | [], _ :: _, _, h, _, _ => by simp [in_range] at h
  | [], [], _ :: _, _, h, _ => by simp [in_range] at h
  | _ :: _, [], _, h, _, _ => by simp [in_range] at h
  | _ :: _, _ :: _, [], _, h, _ => by simp [in_range] at h
  | s :: S, i :: idx, j :: idx2, h, h2, he => by
      simp only [in_range] at h h2
      simp only [row_major_index] at he
      have hr := row_major_index_lt S idx h.2
      have hr2 := row_major_index_lt S idx2 h2.2
      have e1 : (i * S.prod + row_major_index S idx) % S.prod = row_major_index S idx := by
        rw [Nat.add_comm, Nat.add_mul_mod_self_right, Nat.mod_eq_of_lt hr]
      have e2 : (j * S.prod + row_major_index S idx2) % S.prod = row_major_index S idx2 := by
        rw [Nat.add_comm, Nat.add_mul_mod_self_right, Nat.mod_eq_of_lt hr2]
      have hm : row_major_index S idx = row_major_index S idx2 := by
        rw [← e1, he, e2]
      have hq : i * S.prod = j * S.prod := by omega
      have hP : 0 < S.prod := by omega
      have hij : i = j := Nat.eq_of_mul_eq_mul_right hP hq
      rw [hij, row_major_index_inj S idx idx2 h.2 h2.2 hm]

theorem col_major_index_inj :
    ∀ (S idx idx2 : List Nat), in_range S idx → in_range S idx2 →
      col_major_index S idx = col_major_index S idx2 → idx = idx2
  | [], [], [], _, _, _ => rfl
  | [], _ :: _, _, h, _, _ => by simp [in_range] at h
  | [], [], _ :: _, _, h, _ => by simp [in_range] at h
  | _ :: _, [], _, h, _, _ => by simp [in_range] at h
  | _ :: _, _ :: _, [], _, h, _ => by simp [in_range] at h
  | s :: S, i :: idx, j :: idx2, h, h2, he => by
      simp only [in_range] at h h2
      simp only [col_major_index] at he
      have hm := congrArg (fun x => x % s) he
      simp only [Nat.add_mul_mod_self_left, Nat.mod_eq_of_lt h.1, Nat.mod_eq_of_lt h2.1] at hm
      have hq : s * col_major_index S idx = s * col_major_index S idx2 := by omega
      have hs : 0 < s := by omega
      have hc : col_major_index S idx = col_major_index S idx2 :=
        Nat.eq_of_mul_eq_mul_left hs hq
      rw [hm, col_major_index_inj S idx idx2 h.2 h2.2 hc]

theorem layout_offset_eq (itemsize : Nat) (S idx : List Nat) (L : layout)
    (hpos : ∀ s ∈ S, 1 ≤ s) (hfit : itemsize * S.prod < size_t_range) (hidx : in_range S idx) :
    (List.zipWith (fun i st => i * st) idx (layout_strides itemsize S L)).sum =
      itemsize * layout_index L S idx := by
  cases L
  · rw [layout_strides_row]
    exact row_offset_eq itemsize S idx (fits_size_t_of_total itemsize S hpos hfit) hidx
  · rw [layout_strides_col]
    exact col_offset_eq S idx itemsize hpos hfit hidx

theorem layout_strides_dvd (itemsize : Nat) (S : List Nat) (L : layout)
    (hpos : ∀ s ∈ S, 1 ≤ s) (hfit : itemsize * S.prod < size_t_range) :
    ∀ b ∈ layout_strides itemsize S L, itemsize ∣ b := by
  cases L
  · rw [layout_strides_row]
    exact row_strides_dvd itemsize S (fits_size_t_of_total itemsize S hpos hfit)
  · rw [layout_strides_col]
    exact col_strides_dvd itemsize S itemsize (dvd_refl _) hpos hfit

theorem layout_index_lt (S idx : List Nat) (L : layout) (hidx : in_range S idx) :
    layout_index L S idx < S.prod := by
  cases L
  · exact row_major_index_lt S idx hidx
  · exact col_major_index_lt S idx hidx

theorem layout_index_inj (S idx idx2 : List Nat) (L : layout) (h : in_range S idx)
    (h2 : in_range S idx2) (he : layout_index L S idx = layout_index L S idx2) : idx = idx2 := by
  cases L
  · exact row_major_index_inj S idx idx2 h h2 he
  · exact col_major_index_inj S idx idx2 h h2 he

/-! ## Backstrides -/

/-- C1: for a view with one byte stride per dimension, each a multiple of the
element size, and a dimension `i` below the rank whose extent is a `size_t`
value of at least one with `(shape[i] - 1) * byte_stride[i]` representable (no
wrap-around), `pyarray_backstrides::operator[](i)` returns `0` when
`shape()[i] = 1` and `(shape()[i] - 1) * strides()[i]` otherwise. -/
theorem backstrides_operator_index_eq {α : Type} (itemsize : Nat) (a : pybind_array α) (i : Nat)
    (hwf : a.wf)
    (hdiv : ∀ b ∈ a.strides, itemsize ∣ b)
    (hi : i < pyarray.dimension a)
    (hpos : 1 ≤ (pyarray.shape a).getD i 0)
    (hsh : (pyarray.shape a).getD i 0 < size_t_range)
    (hmul : ((pyarray.shape a).getD i 0 - 1) * a.strides.getD i 0 < size_t_range) :
    pyarray_backstrides.operator_index itemsize a i =
      some (if (pyarray.shape a).getD i 0 = 1 then 0
            else ((pyarray.shape a).getD i 0 - 1) * (pyarray.strides itemsize a).getD i 0) := by
  unfold pybind_array.wf at hwf
  unfold pyarray.dimension at hi
  have hi2 : i < a.strides.length := by omega
  simp only [pyarray.shape, pyarray.strides, pyarray_backstrides.operator_index] at *
  have e1 : a.shape[i]? = some a.shape[i] := List.getElem?_eq_getElem hi
  have e2 : a.strides[i]? = some a.strides[i] := List.getElem?_eq_getElem hi2
  have g1 : a.shape.getD i 0 = a.shape[i] := by simp [List.getD, e1]
  have g2 : a.strides.getD i 0 = a.strides[i] := by simp [List.getD, e2]
  have g3 : (List.map (fun str => str / itemsize) a.strides).getD i 0 = a.strides[i] / itemsize := by
    simp [List.getD, hi2]
  rw [g1] at hpos hsh hmul ⊢
  rw [g2] at hmul
  rw [g3, e1, e2]
  simp only
  by_cases h1 : a.shape[i] = 1
  · simp [h1]
  · simp only [h1, if_false]
    have hd : itemsize ∣ a.strides[i] := hdiv _ (List.getElem_mem hi2)
    have hsub : (a.shape[i] + size_t_range - 1) % size_t_range = a.shape[i] - 1 := by
      have : a.shape[i] + size_t_range - 1 = (a.shape[i] - 1) + size_t_range := by omega
      rw [this, Nat.add_mod_right]
      exact Nat.mod_eq_of_lt (by omega)
    rw [hsub, Nat.mod_eq_of_lt hmul, Nat.mul_div_assoc _ hd]

/-- C1 at the (2,2) row-major view of 8-byte elements: element strides (2,1) and
backstrides (2,1). -/
theorem backstrides_operator_index_eq_witness :
    pyarray.strides 8 (⟨[2, 2], [16, 8], [1, 2, 3, 4]⟩ : pybind_array Nat) = [2, 1] ∧
    pyarray_backstrides.operator_index 8 (⟨[2, 2], [16, 8], [1, 2, 3, 4]⟩ : pybind_array Nat) 0
      = some 2 ∧
    pyarray_backstrides.operator_index 8 (⟨[2, 2], [16, 8], [1, 2, 3, 4]⟩ : pybind_array Nat) 1
      = some 1 := by
  refine ⟨by decide, ?_, ?_⟩
  · exact backstrides_operator_index_eq 8 ⟨[2, 2], [16, 8], [1, 2, 3, 4]⟩ 0
      (by decide) (by decide) (by decide) (by decide) (by decide) (by decide)
  · exact backstrides_operator_index_eq 8 ⟨[2, 2], [16, 8], [1, 2, 3, 4]⟩ 1
      (by decide) (by decide) (by decide) (by decide) (by decide) (by decide)

/-! ## Reshape with a layout -/

/-- C2: for every shape `S` and layout `L`, `reshape(S, L)` yields a view whose
`shape()` is `S`, and whose element stride `strides()[i]` is `0` at every
dimension `i` with `S[i] = 1`. -/
theorem reshape_layout_shape_unit_stride {α : Type} (itemsize : Nat) (fresh : List α)
    (v : pyarray α) (S : List Nat) (L : layout) :
    ∃ a : pybind_array α,
      pyarray.reshape_layout itemsize fresh v S L = Except.ok ⟨some a⟩ ∧
      pyarray.shape a = S ∧
      ∀ i : Nat, S[i]? = some 1 → (pyarray.strides itemsize a)[i]? = some 0 := by
  refine ⟨⟨S, layout_strides itemsize S L, fresh⟩, reshape_layout_ok itemsize fresh v S L, rfl, ?_⟩
  intro i hi
  have hb : (layout_strides itemsize S L)[i]? = some 0 := by
    cases L
    · rw [layout_strides_row]; exact row_strides_unit itemsize S i hi
    · rw [layout_strides_col]; exact col_strides_unit S itemsize i hi
  simp [pyarray.strides, hb]

/-- C2 at shape (2,1,3), column-major, 8-byte elements, from a null view: the
middle dimension has element stride `0`. -/
theorem reshape_layout_shape_unit_stride_witness :
    ∃ a : pybind_array Nat,
      pyarray.reshape_layout 8 [] ⟨none⟩ [2, 1, 3] layout.column_major = Except.ok ⟨some a⟩ ∧
      pyarray.shape a = [2, 1, 3] ∧ (pyarray.strides 8 a)[1]? = some 0 := by
  obtain ⟨a, h1, h2, h3⟩ :=
    reshape_layout_shape_unit_stride 8 ([] : List Nat) ⟨none⟩ [2, 1, 3] layout.column_major
  exact ⟨a, h1, h2, h3 1 (by decide)⟩

/-! ## Broadcast stepping over a wrapped descriptor -/

/-- C3 at a view wrapping the descriptor of a (1,3) array of 8-byte elements
with byte strides (24,8), stepped against the broadcast shape (4,3): `strides()`
is (3,1), so one step along dimension 0 moves the cursor from offset 0 to
offset 3, while the backstride of that dimension is 0; the next two inner steps
reach offsets 4 and 5, and none of 3, 4, 5 is an element of the 3-element
block. -/
theorem stepper_unit_dimension_moves :
    pyarray.strides 8 (⟨[1, 3], [24, 8], [10, 20, 30]⟩ : pybind_array Nat) = [3, 1] ∧
    (pyarray.stepper_begin (⟨[1, 3], [24, 8], [10, 20, 30]⟩ : pybind_array Nat) [4, 3]).m_offset
      = 0 ∧
    (xstepper.step 8
      (pyarray.stepper_begin (⟨[1, 3], [24, 8], [10, 20, 30]⟩ : pybind_array Nat) [4, 3]) 0).m_it
      = 3 ∧
    pyarray_backstrides.operator_index 8 (⟨[1, 3], [24, 8], [10, 20, 30]⟩ : pybind_array Nat) 0
      = some 0 ∧
    (xstepper.step 8 (xstepper.step 8 (xstepper.step 8
      (pyarray.stepper_begin (⟨[1, 3], [24, 8], [10, 20, 30]⟩ : pybind_array Nat) [4, 3]) 0) 1)
        1).m_it = 5 ∧
    ([10, 20, 30] : List Nat)[3]? = none := by
  refine ⟨by decide, by decide, by decide, by decide, by decide, by decide⟩

/-! ## Element access -/

/-- C4, as stated, fails: a reversed one-dimensional view of three 8-byte
elements has byte stride `2 ^ 64 - 8` (a multiple of 8) and `strides()` equal to
`2 ^ 61 - 1`; at index 2 the byte offset wraps, `operator()` addresses offset
`(2 ^ 64 - 16) / 8 = 2 ^ 61 - 2`, while `(idx * byte_stride) / 8` and
`idx * strides()[0]` are both `2 ^ 62 - 2`. -/
theorem operator_call_offset_wraps :
    (∀ b ∈ (⟨[3], [18446744073709551608], [30]⟩ : pybind_array Nat).strides, 8 ∣ b) ∧
    [2].length = pyarray.dimension (⟨[3], [18446744073709551608], [30]⟩ : pybind_array Nat) ∧
    pyarray.strides 8 (⟨[3], [18446744073709551608], [30]⟩ : pybind_array Nat) =
      [2305843009213693951] ∧
    pyarray.operator_call 8 (⟨[3], [18446744073709551608], [30]⟩ : pybind_array Nat) [2] =
      Except.ok 2305843009213693950 ∧
    (List.zipWith (fun i st => i * st) [2]
      (⟨[3], [18446744073709551608], [30]⟩ : pybind_array Nat).strides).sum / 8 =
        4611686018427387902 ∧
    (List.zipWith (fun i st => i * st) [2]
      (pyarray.strides 8 (⟨[3], [18446744073709551608], [30]⟩ : pybind_array Nat))).sum =
        4611686018427387902 ∧
    (2305843009213693950 : Nat) ≠ 4611686018427387902 := by
  refine ⟨by decide, by decide, by decide, ?_, by decide, by decide, by decide⟩
  simp [pyarray.operator_call, pyarray.dimension, pybind_array.get_byte_offset, size_t_range]

/-- C4, amended: for a view whose byte strides are multiples of the element size
and an index tuple with one index per dimension whose byte offset
`sum_i idx_i * byte_stride_i` is a `size_t` value (no wrap-around), `operator()`
addresses the element at offset `(sum_i idx_i * byte_stride_i) / itemsize` from
the data pointer, that offset is `sum_i idx_i * strides()[i]`, and the const
overload yields the element the buffer holds at that offset. -/
theorem operator_call_offset {α : Type} (itemsize : Nat) (a : pybind_array α) (args : List Nat)
    (hdiv : ∀ b ∈ a.strides, itemsize ∣ b)
    (hlen : args.length = pyarray.dimension a)
    (hnowrap : (List.zipWith (fun i st => i * st) args a.strides).sum < size_t_range) :
    pyarray.operator_call itemsize a args =
      Except.ok ((List.zipWith (fun i st => i * st) args a.strides).sum / itemsize) ∧
    (List.zipWith (fun i st => i * st) args a.strides).sum / itemsize =
      (List.zipWith (fun i st => i * st) args (pyarray.strides itemsize a)).sum ∧
    (∀ x : α,
      a.data[(List.zipWith (fun i st => i * st) args (pyarray.strides itemsize a)).sum]? =
        some x →
      pyarray.operator_call_const itemsize a args = Except.ok (some x)) := by
  have hdivsum : (List.zipWith (fun i st => i * st) args a.strides).sum / itemsize =
      (List.zipWith (fun i st => i * st) args (pyarray.strides itemsize a)).sum :=
    byte_offset_div itemsize args a.strides hdiv
  refine ⟨?_, hdivsum, ?_⟩
  · simp [pyarray.operator_call, hlen, pybind_array.get_byte_offset, Nat.mod_eq_of_lt hnowrap]
  · intro x hx
    rw [← hdivsum] at hx
    simp [pyarray.operator_call_const, hlen, pybind_array.get_byte_offset,
      Nat.mod_eq_of_lt hnowrap, hx]

/-- C4, amended, at the (2,2) row-major view over `[1,2,3,4]` with 8-byte
elements: `strides()` is (2,1) and the element at (1,0) is `3`, at offset
`1*2 + 0*1`. -/
theorem operator_call_offset_witness :
    pyarray.strides 8 (⟨[2, 2], [16, 8], [1, 2, 3, 4]⟩ : pybind_array Nat) = [2, 1] ∧
    pyarray.operator_call_const 8 (⟨[2, 2], [16, 8], [1, 2, 3, 4]⟩ : pybind_array Nat) [1, 0]
      = Except.ok (some 3) ∧
    pyarray.operator_call 8 (⟨[2, 2], [16, 8], [1, 2, 3, 4]⟩ : pybind_array Nat) [1, 0]
      = Except.ok (1 * 2 + 0 * 1) := by
  have h := operator_call_offset 8 (⟨[2, 2], [16, 8], [1, 2, 3, 4]⟩ : pybind_array Nat) [1, 0]
    (by decide) (by decide) (by decide)
  refine ⟨by decide, ?_, ?_⟩
  · exact h.2.2 3 (by decide)
  · rw [h.1]; rfl

/-- C5: `operator()` (either overload) fails with the dimension-mismatch error
exactly when the number of indices differs from `dimension()`; the failure is
decided from the index count and the rank alone, so it is the same whatever the
buffer holds (no element is consulted), and no element reference is produced. -/
theorem operator_call_dimension_check {α : Type} (itemsize : Nat) (a : pybind_array α)
    (args : List Nat) :
    (pyarray.operator_call itemsize a args = Except.error failure.index_dimension_mismatch ↔
      args.length ≠ pyarray.dimension a) ∧
    (pyarray.operator_call_const itemsize a args = Except.error failure.index_dimension_mismatch ↔
      args.length ≠ pyarray.dimension a) ∧
    ((∃ e, pyarray.operator_call itemsize a args = Except.error e) ↔
      args.length ≠ pyarray.dimension a) ∧
    (args.length ≠ pyarray.dimension a →
      ∀ data : List α,
        pyarray.operator_call_const itemsize ⟨a.shape, a.strides, data⟩ args =
          Except.error failure.index_dimension_mismatch) := by
  refine ⟨?_, ?_, ?_, ?_⟩
  · unfold pyarray.operator_call
    by_cases h : args.length = pyarray.dimension a <;> simp [h]
  · unfold pyarray.operator_call_const
    by_cases h : args.length = pyarray.dimension a <;> simp [h]
  · unfold pyarray.operator_call
    by_cases h : args.length = pyarray.dimension a <;> simp [h]
  · intro h data
    unfold pyarray.operator_call_const
    have h2 : args.length ≠ pyarray.dimension (⟨a.shape, a.strides, data⟩ : pybind_array α) := h
    simp [h2]

/-- C5 at two indices against a rank-3 view: the access fails with the
dimension-mismatch error. -/
theorem operator_call_dimension_check_witness :
    pyarray.operator_call 8
      (⟨[2, 2, 2], [32, 16, 8], [1, 2, 3, 4, 5, 6, 7, 8]⟩ : pybind_array Nat) [1, 0]
      = Except.error failure.index_dimension_mismatch :=
  (operator_call_dimension_check 8
    (⟨[2, 2, 2], [32, 16, 8], [1, 2, 3, 4, 5, 6, 7, 8]⟩ : pybind_array Nat) [1, 0]).1.mpr
    (by decide)

/-! ## Reshape with explicit strides -/

/-- C6, as stated, fails: with 8-byte elements, `reshape((2,3), (3,1))` yields a
view whose `shape()` is (2,3) but whose `strides()` is (0,0), not (3,1). -/
theorem reshape_strides_not_requested :
    pyarray.reshape_strides [0, 0, 0, 0, 0, 0] (⟨none⟩ : pyarray Nat) [2, 3] [3, 1] =
      Except.ok ⟨some ⟨[2, 3], [3, 1], [0, 0, 0, 0, 0, 0]⟩⟩ ∧
    pyarray.shape (⟨[2, 3], [3, 1], [0, 0, 0, 0, 0, 0]⟩ : pybind_array Nat) = [2, 3] ∧
    pyarray.strides 8 (⟨[2, 3], [3, 1], [0, 0, 0, 0, 0, 0]⟩ : pybind_array Nat) = [0, 0] ∧
    pyarray.strides 8 (⟨[2, 3], [3, 1], [0, 0, 0, 0, 0, 0]⟩ : pybind_array Nat) ≠ [3, 1] := by
  refine ⟨rfl, by decide, by decide, by decide⟩

/-- C6, amended: for every shape `S` and strides sequence `R` of the same length,
`reshape(S, R)` yields a view whose `shape()` is `S` and whose `strides()` is `R`
divided entry by entry by the element size (`R` becomes the byte strides of the
new buffer). -/
theorem reshape_strides_byte_strides {α : Type} (itemsize : Nat) (fresh : List α)
    (v : pyarray α) (S R : List Nat) (hlen : R.length = S.length) :
    ∃ a : pybind_array α,
      pyarray.reshape_strides fresh v S R = Except.ok ⟨some a⟩ ∧
      pyarray.shape a = S ∧
      pyarray.strides itemsize a = R.map (fun r => r / itemsize) := by
  refine ⟨⟨S, R, fresh⟩, ?_, rfl, rfl⟩
  simp [pyarray.reshape_strides, pybind_array.construct, hlen]

/-- C6, amended, at `reshape((2,3), (24,8))` with 8-byte elements: `strides()` is
(3,1). -/
theorem reshape_strides_byte_strides_witness :
    ∃ a : pybind_array Nat,
      pyarray.reshape_strides [] ⟨none⟩ [2, 3] [24, 8] = Except.ok ⟨some a⟩ ∧
      pyarray.shape a = [2, 3] ∧ pyarray.strides 8 a = [3, 1] :=
  reshape_strides_byte_strides 8 ([] : List Nat) ⟨none⟩ [2, 3] [24, 8] (by decide)

/-! ## Row-major monotonicity -/

/-- C7: for every shape `S` whose trailing blocks have byte sizes representable in
`size_t`, the element strides after `reshape(S, row_major)` satisfy
`strides()[i] >= strides()[i+1] * S[i+1]` at every `i` with `i + 1 < rank` and
`S[i] != 1`. -/
theorem reshape_row_major_monotone {α : Type} (itemsize : Nat) (fresh : List α)
    (v : pyarray α) (S : List Nat) (hes : 0 < itemsize) (hfit : fits_size_t itemsize S) :
    ∃ a : pybind_array α,
      pyarray.reshape_layout itemsize fresh v S layout.row_major = Except.ok ⟨some a⟩ ∧
      ∀ i : Nat, i + 1 < S.length → S.getD i 0 ≠ 1 →
        (pyarray.strides itemsize a).getD (i + 1) 0 * S.getD (i + 1) 0 ≤
          (pyarray.strides itemsize a).getD i 0 := by
  refine ⟨⟨S, layout_strides itemsize S layout.row_major, fresh⟩,
    reshape_layout_ok itemsize fresh v S layout.row_major, ?_⟩
  intro i hi h1
  simp only [pyarray.strides, map_div_getD, layout_strides_row]
  rw [row_strides_getD itemsize S i (by omega), row_strides_getD itemsize S (i + 1) hi]
  simp only [h1, if_false]
  rw [row_size_of_fits itemsize _ (fits_size_t_drop itemsize S hfit (i + 1)),
    Nat.mul_div_cancel_left _ hes]
  have hdrop : S.drop (i + 1) = S.getD (i + 1) 0 :: S.drop (i + 1 + 1) := by
    rw [List.drop_eq_getElem_cons hi]
    simp [List.getD, hi]
  have hprod : (S.drop (i + 1)).prod = S.getD (i + 1) 0 * (S.drop (i + 1 + 1)).prod := by
    rw [hdrop, List.prod_cons]
  rw [hprod]
  by_cases h2 : S.getD (i + 1) 0 = 1
  · rw [if_pos h2, Nat.zero_div, Nat.zero_mul]
    exact Nat.zero_le _
  · rw [if_neg h2, row_size_of_fits itemsize _ (fits_size_t_drop itemsize S hfit (i + 1 + 1)),
      Nat.mul_div_cancel_left _ hes, Nat.mul_comm]

/-- C7 at shape (2,3) with 8-byte elements: the element strides are (3,1), and
`1 * 3 <= 3`. -/
theorem reshape_row_major_monotone_witness :
    (∃ a : pybind_array Nat,
      pyarray.reshape_layout 8 [] ⟨none⟩ [2, 3] layout.row_major = Except.ok ⟨some a⟩ ∧
      (pyarray.strides 8 a).getD 1 0 * 3 ≤ (pyarray.strides 8 a).getD 0 0) ∧
    pyarray.reshape_layout 8 [] (⟨none⟩ : pyarray Nat) [2, 3] layout.row_major =
      Except.ok ⟨some ⟨[2, 3], [24, 8], []⟩⟩ ∧
    pyarray.strides 8 (⟨[2, 3], [24, 8], []⟩ : pybind_array Nat) = [3, 1] := by
  refine ⟨?_, rfl, by decide⟩
  obtain ⟨a, h1, h2⟩ :=
    reshape_row_major_monotone 8 ([] : List Nat) ⟨none⟩ [2, 3] (by decide) (by decide)
  exact ⟨a, h1, h2 0 (by decide) (by decide)⟩

/-! ## Reshape to the current shape -/

/-- C8: `reshape(S)` returns the view as it is (descriptor, strides and contents
included) exactly when `m_ptr` is set, `S` has the view's rank and `S` equals the
current shape entry by entry; in every other case its result is that of
`reshape(S, row_major)`. -/
theorem reshape_noop_iff {α : Type} (itemsize : Nat) (fresh : List α) (v : pyarray α)
    (S : List Nat) :
    (pyarray.reshape itemsize fresh v S = Except.ok v ↔
      ∃ a : pybind_array α, v.m_ptr = some a ∧ S.length = pyarray.dimension a ∧
        ∀ i : Nat, i < S.length → S[i]? = (pyarray.shape a)[i]?) ∧
    ((¬ ∃ a : pybind_array α, v.m_ptr = some a ∧ S.length = pyarray.dimension a ∧
        ∀ i : Nat, i < S.length → S[i]? = (pyarray.shape a)[i]?) →
      pyarray.reshape itemsize fresh v S =
        pyarray.reshape_layout itemsize fresh v S layout.row_major) := by
  obtain ⟨m⟩ := v
  cases m with
  | none =>
      constructor
      · constructor
        · intro h
          simp [pyarray.reshape, reshape_layout_ok] at h
        · rintro ⟨a, ha, _⟩
          simp at ha
      · intro _
        rfl
  | some a =>
      by_cases hc : S = a.shape
      · have hl : S.length = a.shape.length := by rw [hc]
        have heq : std_equal S a.shape = true := (std_equal_iff S a.shape hl).mpr hc
        have hcond : ∃ b : pybind_array α, (pyarray.mk (some a)).m_ptr = some b ∧
            S.length = pyarray.dimension b ∧
            ∀ i : Nat, i < S.length → S[i]? = (pyarray.shape b)[i]? :=
          ⟨a, rfl, hl, ((list_eq_iff_getElem S a.shape).mp hc).2⟩
        constructor
        · constructor
          · intro _
            exact hcond
          · intro _
            simp [pyarray.reshape, pyarray.dimension, hl, heq]
        · intro hn
          exact absurd hcond hn
      · have hncond : ¬ ∃ b : pybind_array α, (pyarray.mk (some a)).m_ptr = some b ∧
            S.length = pyarray.dimension b ∧
            ∀ i : Nat, i < S.length → S[i]? = (pyarray.shape b)[i]? := by
          rintro ⟨b, hb, hl, hget⟩
          simp only [Option.some.injEq] at hb
          subst hb
          exact hc ((list_eq_iff_getElem S a.shape).mpr ⟨hl, hget⟩)
        have hbranch : pyarray.reshape itemsize fresh ⟨some a⟩ S =
            pyarray.reshape_layout itemsize fresh ⟨some a⟩ S layout.row_major := by
          by_cases hl : S.length = a.shape.length
          · have hne : std_equal S a.shape = false := by
              cases hs : std_equal S a.shape with
              | false => rfl
              | true => exact absurd ((std_equal_iff S a.shape hl).mp hs) hc
            simp [pyarray.reshape, pyarray.dimension, hl, hne]
          · simp [pyarray.reshape, pyarray.dimension, hl]
        constructor
        · constructor
          · intro h
            rw [hbranch, reshape_layout_ok] at h
            simp only [Except.ok.injEq, pyarray.mk.injEq, Option.some.injEq] at h
            exact absurd (congrArg pybind_array.shape h) hc
          · intro h
            exact absurd h hncond
        · intro _
          exact hbranch

/-- C8 at a (2,3) view of 8-byte elements with column-major byte strides (8,16):
`reshape((2,3))` leaves it as it is, with `strides()` (1,2), although
`reshape((2,3), row_major)` would give `strides()` (3,1); on a null view
`reshape((2,3))` is `reshape((2,3), row_major)`. -/
theorem reshape_noop_iff_witness :
    pyarray.reshape 8 [] (⟨some ⟨[2, 3], [8, 16], [1, 2, 3, 4, 5, 6]⟩⟩ : pyarray Nat) [2, 3] =
      Except.ok ⟨some ⟨[2, 3], [8, 16], [1, 2, 3, 4, 5, 6]⟩⟩ ∧
    pyarray.strides 8 (⟨[2, 3], [8, 16], [1, 2, 3, 4, 5, 6]⟩ : pybind_array Nat) = [1, 2] ∧
    pyarray.reshape 8 [] (⟨none⟩ : pyarray Nat) [2, 3] =
      pyarray.reshape_layout 8 [] ⟨none⟩ [2, 3] layout.row_major := by
  refine ⟨?_, by decide, ?_⟩
  · exact (reshape_noop_iff 8 [] (⟨some ⟨[2, 3], [8, 16], [1, 2, 3, 4, 5, 6]⟩⟩ : pyarray Nat)
      [2, 3]).1.mpr ⟨_, rfl, rfl, fun _ _ => rfl⟩
  · exact (reshape_noop_iff 8 [] (⟨none⟩ : pyarray Nat) [2, 3]).2 (by simp)

/-! ## Trivial broadcast -/

/-- C9: for a view with one byte stride per dimension, `is_trivial_broadcast(R)`
is true exactly when `R` has `dimension()` entries and `R[i] = strides()[i]` for
every `i`; it is false whenever the length of `R` differs from the rank. -/
theorem is_trivial_broadcast_iff {α : Type} (itemsize : Nat) (a : pybind_array α)
    (R : List Nat) (hwf : a.wf) :
    (pyarray.is_trivial_broadcast itemsize a R = true ↔
      R.length = pyarray.dimension a ∧
        ∀ i : Nat, i < R.length → R[i]? = (pyarray.strides itemsize a)[i]?) ∧
    (R.length ≠ pyarray.dimension a → pyarray.is_trivial_broadcast itemsize a R = false) := by
  unfold pybind_array.wf at hwf
  have hsl : (pyarray.strides itemsize a).length = pyarray.dimension a := by
    simp [pyarray.strides, pyarray.dimension, hwf]
  constructor
  · constructor
    · intro h
      simp only [pyarray.is_trivial_broadcast, Bool.and_eq_true, beq_iff_eq] at h
      have hl : R.length = (pyarray.strides itemsize a).length := by rw [hsl]; exact h.1
      have he := (std_equal_iff R _ hl).mp h.2
      exact ⟨h.1, ((list_eq_iff_getElem R _).mp he).2⟩
    · rintro ⟨hl, hget⟩
      have hl2 : R.length = (pyarray.strides itemsize a).length := by rw [hsl]; exact hl
      have he : R = pyarray.strides itemsize a := (list_eq_iff_getElem R _).mpr ⟨hl2, hget⟩
      simp only [pyarray.is_trivial_broadcast, Bool.and_eq_true, beq_iff_eq]
      exact ⟨hl, (std_equal_iff R _ hl2).mpr he⟩
  · intro hne
    simp [pyarray.is_trivial_broadcast, hne]

/-- C9 at the (2,2) row-major view of 8-byte elements, whose `strides()` is
(2,1): `(2,1)` is a trivial broadcast, the prefix `(2)` and the extension
`(2,1,0)` are not. -/
theorem is_trivial_broadcast_iff_witness :
    pyarray.is_trivial_broadcast 8 (⟨[2, 2], [16, 8], [1, 2, 3, 4]⟩ : pybind_array Nat) [2, 1]
      = true ∧
    pyarray.is_trivial_broadcast 8 (⟨[2, 2], [16, 8], [1, 2, 3, 4]⟩ : pybind_array Nat) [2]
      = false ∧
    pyarray.is_trivial_broadcast 8 (⟨[2, 2], [16, 8], [1, 2, 3, 4]⟩ : pybind_array Nat) [2, 1, 0]
      = false := by
  refine ⟨?_, ?_, ?_⟩
  · exact (is_trivial_broadcast_iff 8 (⟨[2, 2], [16, 8], [1, 2, 3, 4]⟩ : pybind_array Nat)
      [2, 1] (by decide)).1.mpr ⟨rfl, fun _ _ => rfl⟩
  · exact (is_trivial_broadcast_iff 8 (⟨[2, 2], [16, 8], [1, 2, 3, 4]⟩ : pybind_array Nat)
      [2] (by decide)).2 (by decide)
  · exact (is_trivial_broadcast_iff 8 (⟨[2, 2], [16, 8], [1, 2, 3, 4]⟩ : pybind_array Nat)
      [2, 1, 0] (by decide)).2 (by decide)

/-! ## Contents after a reshape -/

/-- C10, as stated, fails: reshaping the rank-1 view over `[10,20,30,40,50,60]`
(8-byte elements) to (2,3) row-major, with a new block holding zeros, gives
strides (3,1) and the element `0` at (1,2), while the original element at flat
index 5 was `60`. -/
theorem reshape_discards_contents :
    pyarray.reshape_layout 8 [0, 0, 0, 0, 0, 0]
        (⟨some ⟨[6], [8], [10, 20, 30, 40, 50, 60]⟩⟩ : pyarray Nat) [2, 3] layout.row_major =
      Except.ok ⟨some ⟨[2, 3], [24, 8], [0, 0, 0, 0, 0, 0]⟩⟩ ∧
    pyarray.strides 8 (⟨[2, 3], [24, 8], [0, 0, 0, 0, 0, 0]⟩ : pybind_array Nat) = [3, 1] ∧
    pyarray.operator_call_const 8 (⟨[2, 3], [24, 8], [0, 0, 0, 0, 0, 0]⟩ : pybind_array Nat)
        [1, 2] = Except.ok (some 0) ∧
    pyarray.operator_call_const 8 (⟨[6], [8], [10, 20, 30, 40, 50, 60]⟩ : pybind_array Nat)
        [5] = Except.ok (some 60) ∧
    (0 : Nat) ≠ 60 := by
  refine ⟨rfl, by decide, rfl, rfl, by decide⟩

/-- C10, amended: for every view and every shape `S` whose trailing blocks have
byte sizes representable in `size_t`, after `reshape(S, row_major)` the element
read at an in-range index tuple is the element the newly allocated buffer holds
at the row-major flat index of that tuple, which lies below the product of the
extents. -/
theorem reshape_row_major_reads_fresh {α : Type} (itemsize : Nat) (fresh : List α)
    (v : pyarray α) (S idx : List Nat) (hes : 0 < itemsize)
    (hfit : fits_size_t itemsize S) (hidx : in_range S idx) :
    ∃ a : pybind_array α,
      pyarray.reshape_layout itemsize fresh v S layout.row_major = Except.ok ⟨some a⟩ ∧
      pyarray.operator_call_const itemsize a idx =
        Except.ok (fresh[row_major_index S idx]?) ∧
      row_major_index S idx < S.prod := by
  refine ⟨⟨S, layout_strides itemsize S layout.row_major, fresh⟩,
    reshape_layout_ok itemsize fresh v S layout.row_major, ?_,
    row_major_index_lt S idx hidx⟩
  have hl : idx.length = S.length := in_range_length S idx hidx
  have hlt : itemsize * row_major_index S idx < size_t_range := by
    have h0 : itemsize * S.prod < size_t_range := by simpa using hfit 0 (Nat.zero_le _)
    exact Nat.lt_of_le_of_lt
      (Nat.mul_le_mul_left _ (Nat.le_of_lt (row_major_index_lt S idx hidx))) h0
  simp only [pyarray.operator_call_const, pyarray.dimension, hl, ne_eq, not_true_eq_false,
    if_false, pybind_array.get_byte_offset, layout_strides_row]
  rw [row_offset_eq itemsize S idx hfit hidx, Nat.mod_eq_of_lt hlt,
    Nat.mul_div_cancel_left _ hes]

/-- C10, amended, at a 6-element rank-1 view reshaped to (2,3) with 8-byte
elements: the element at (1,2) is the one the new block holds at flat index 5. -/
theorem reshape_row_major_reads_fresh_witness :
    ∃ a : pybind_array Nat,
      pyarray.reshape_layout 8 [0, 1, 2, 3, 4, 5]
        ⟨some ⟨[6], [8], [10, 20, 30, 40, 50, 60]⟩⟩ [2, 3] layout.row_major =
          Except.ok ⟨some a⟩ ∧
      pyarray.operator_call_const 8 a [1, 2] = Except.ok (some 5) := by
  obtain ⟨a, h1, h2, _⟩ :=
    reshape_row_major_reads_fresh 8 [0, 1, 2, 3, 4, 5]
      ⟨some ⟨[6], [8], [10, 20, 30, 40, 50, 60]⟩⟩ [2, 3] [1, 2] (by decide) (by decide)
      (by decide)
  exact ⟨a, h1, h2⟩

/-! ## The index-to-offset map after a reshape -/

/-- C11: for every shape `S` with all extents at least one whose byte size is
representable in `size_t`, and every layout `L`, the view left by `reshape(S, L)`
sends each in-range index tuple to the offset `sum_i idx_i * strides()[i]`, which
is the row-major linearisation of the tuple for `row_major` and the column-major
one for `column_major`; that offset lies strictly below `storage_end()`, which is
the product of the extents of `S`, and two in-range tuples with the same offset
are equal. -/
theorem reshape_layout_offset_linear {α : Type} (itemsize : Nat) (fresh : List α)
    (v : pyarray α) (S : List Nat) (L : layout) (hes : 0 < itemsize)
    (hpos : ∀ s ∈ S, 1 ≤ s) (hfit : itemsize * S.prod < size_t_range) :
    ∃ a : pybind_array α,
      pyarray.reshape_layout itemsize fresh v S L = Except.ok ⟨some a⟩ ∧
      pyarray.storage_end a = S.prod ∧
      (∀ idx : List Nat, in_range S idx →
        pyarray.operator_call itemsize a idx = Except.ok (layout_index L S idx) ∧
        (List.zipWith (fun i st => i * st) idx (pyarray.strides itemsize a)).sum =
          layout_index L S idx ∧
        layout_index L S idx < pyarray.storage_end a) ∧
      (∀ idx idx2 : List Nat, in_range S idx → in_range S idx2 →
        pyarray.operator_call itemsize a idx = pyarray.operator_call itemsize a idx2 →
        idx = idx2) := by
  have hcall : ∀ idx : List Nat, in_range S idx →
      pyarray.operator_call itemsize
        (⟨S, layout_strides itemsize S L, fresh⟩ : pybind_array α) idx =
        Except.ok (layout_index L S idx) := by
    intro idx hidx
    have hl : idx.length = S.length := in_range_length S idx hidx
    have hlt : itemsize * layout_index L S idx < size_t_range :=
      Nat.lt_of_le_of_lt
        (Nat.mul_le_mul_left _ (Nat.le_of_lt (layout_index_lt S idx L hidx))) hfit
    simp only [pyarray.operator_call, pyarray.dimension, hl, ne_eq, not_true_eq_false,
      if_false, pybind_array.get_byte_offset]
    rw [layout_offset_eq itemsize S idx L hpos hfit hidx, Nat.mod_eq_of_lt hlt,
      Nat.mul_div_cancel_left _ hes]
  have hend : pyarray.storage_end
      (⟨S, layout_strides itemsize S L, fresh⟩ : pybind_array α) = S.prod := by
    simp [pyarray.storage_end, pyarray.storage_begin, pybind_array.size]
  refine ⟨⟨S, layout_strides itemsize S L, fresh⟩,
    reshape_layout_ok itemsize fresh v S L, hend, ?_, ?_⟩
  · intro idx hidx
    refine ⟨hcall idx hidx, ?_, ?_⟩
    · show (List.zipWith (fun i st => i * st) idx
        ((layout_strides itemsize S L).map (fun str => str / itemsize))).sum = _
      rw [← byte_offset_div itemsize idx _ (layout_strides_dvd itemsize S L hpos hfit),
        layout_offset_eq itemsize S idx L hpos hfit hidx, Nat.mul_div_cancel_left _ hes]
    · rw [hend]
      exact layout_index_lt S idx L hidx
  · intro idx idx2 hidx hidx2 he
    rw [hcall idx hidx, hcall idx2 hidx2] at he
    exact layout_index_inj S idx idx2 L hidx hidx2 (Except.ok.inj he)

/-- C11 at shape (2,1,3), column-major, 8-byte elements: the tuple (1,0,2) has
offset `1 + 2 * (0 + 1 * 2) = 5`, below the element count `6`. -/
theorem reshape_layout_offset_linear_witness :
    ∃ a : pybind_array Nat,
      pyarray.reshape_layout 8 [] ⟨none⟩ [2, 1, 3] layout.column_major = Except.ok ⟨some a⟩ ∧
      pyarray.storage_end a = 6 ∧
      pyarray.operator_call 8 a [1, 0, 2] = Except.ok 5 ∧
      (List.zipWith (fun i st => i * st) [1, 0, 2] (pyarray.strides 8 a)).sum = 5 := by
  obtain ⟨a, h1, h2, h3, _⟩ :=
    reshape_layout_offset_linear 8 ([] : List Nat) ⟨none⟩ [2, 1, 3] layout.column_major
      (by decide) (by decide) (by decide)
  obtain ⟨h4, h5, _⟩ := h3 [1, 0, 2] (by decide)
  exact ⟨a, h1, h2, h4, h5⟩

end xt
